import Mathlib

/-!
Shallow embedding of the ggml-opencog core (src/ggml-opencog.cpp):
the truth-value algebra, the AtomSpace store, the two built-in PLN rules
(modus ponens and inheritance transitivity), and the URE forward-chaining
loop.

Modelling conventions:
* C `float` arithmetic is modelled exactly over `ℚ`; every operation used by
  the code (multiplication, addition, subtraction, `fminf`, `fmaxf`,
  comparisons) is exact on the rationals.
* Atom pointers are modelled as indices into the AtomSpace's atom list, and
  pointer identity as index equality.  Outgoing links of a link atom are
  stored as indices.
* The tensor/backend fields (`ctx`, `backend`, `buffer`, embeddings,
  `embedding_dim`, the opaque `data` payload) are omitted: the reasoning
  core never reads them.
* Fallible C functions that return `nullptr` are modelled with `Option`;
  state-mutating functions take and return the `AtomSpace` explicitly.
* The unbounded `for` loops of `ggml_opencog_ure_forward_chain` re-read
  `n_atoms` on every test; they are modelled with an explicit fuel argument,
  `none` marking fuel exhaustion.  A termination theorem shows the canonical
  fuel (`capacity + 1`) never exhausts on capacity-respecting spaces.
-/

/-- `struct ggml_opencog_truth_value`: strength, confidence, count. -/
structure TruthValue where
  strength : ℚ
  confidence : ℚ
  count : ℚ
deriving Repr, DecidableEq

/-- `ggml_opencog_tv_create`: clamps strength and confidence to `[0,1]` and
count to `[0,∞)`. -/
def ggml_opencog_tv_create (strength confidence count : ℚ) : TruthValue :=
  { strength := max 0 (min 1 strength)
    confidence := max 0 (min 1 confidence)
    count := max 0 count }

/-- `ggml_opencog_tv_and`: PLN conjunction. -/
def ggml_opencog_tv_and (tv1 tv2 : TruthValue) : TruthValue :=
  ggml_opencog_tv_create (tv1.strength * tv2.strength)
    (tv1.confidence * tv2.confidence) (tv1.count + tv2.count)

/-- `ggml_opencog_tv_or`: PLN disjunction. -/
def ggml_opencog_tv_or (tv1 tv2 : TruthValue) : TruthValue :=
  ggml_opencog_tv_create (tv1.strength + tv2.strength - tv1.strength * tv2.strength)
    (min tv1.confidence tv2.confidence) (max tv1.count tv2.count)

/-- `ggml_opencog_tv_not`. -/
def ggml_opencog_tv_not (tv : TruthValue) : TruthValue :=
  ggml_opencog_tv_create (1 - tv.strength) tv.confidence tv.count

/-- The declared ranges of the truth-value fields. -/
def TVInRange (tv : TruthValue) : Prop :=
  0 ≤ tv.strength ∧ tv.strength ≤ 1 ∧
  0 ≤ tv.confidence ∧ tv.confidence ≤ 1 ∧ 0 ≤ tv.count

instance (tv : TruthValue) : Decidable (TVInRange tv) := by
  unfold TVInRange; infer_instance

/-- `enum ggml_opencog_atom_type`. -/
inductive AtomType
  | concept_node
  | predicate_node
  | link_node
  | inheritance_link
  | similarity_link
  | implication_link
  | evaluation_link
deriving Repr, DecidableEq

/-- `struct ggml_opencog_atom`, with outgoing pointers as indices. -/
structure Atom where
  type : AtomType
  name : Option String
  tv : TruthValue
  outgoing : List Nat
deriving Repr, DecidableEq

/-- `struct ggml_opencog_atomspace`: the atom array in creation order plus
the fixed capacity. -/
structure AtomSpace where
  atoms : List Atom
  capacity : Nat
deriving Repr, DecidableEq

/-- `ggml_opencog_atom_create`: fails when full, else appends a node. -/
def ggml_opencog_atom_create (as : AtomSpace) (type : AtomType) (name : String)
    (tv : TruthValue) : Option Nat × AtomSpace :=
  if as.atoms.length ≥ as.capacity then
    (none, as)
  else
    (some as.atoms.length,
      { as with atoms := as.atoms ++
          [{ type := type, name := some name, tv := tv, outgoing := [] }] })

/-- `ggml_opencog_link_create`: fails when full, else appends a link with the
given outgoing atoms. -/
def ggml_opencog_link_create (as : AtomSpace) (type : AtomType)
    (outgoing : List Nat) (tv : TruthValue) : Option Nat × AtomSpace :=
  if as.atoms.length ≥ as.capacity then
    (none, as)
  else
    (some as.atoms.length,
      { as with atoms := as.atoms ++
          [{ type := type, name := none, tv := tv, outgoing := outgoing }] })

/-- The in-place assignment `atom->tv = tv` for the atom at index `i`. -/
def setAtomTV (as : AtomSpace) (i : Nat) (tv : TruthValue) : AtomSpace :=
  match as.atoms[i]? with
  | none => as
  | some a => { as with atoms := as.atoms.set i { a with tv := tv } }

/-- `ggml_opencog_rule_modus_ponens_precondition`: premises `[P, P→Q]` where
the implication's first outgoing atom is identical to `P`. -/
def ggml_opencog_rule_modus_ponens_precondition (as : AtomSpace)
    (premises : List Nat) : Bool :=
  match premises with
  | [p, implication] =>
    match as.atoms[implication]? with
    | some impAtom =>
      decide (impAtom.type = AtomType.implication_link) &&
      decide (impAtom.outgoing.length = 2) &&
      decide (impAtom.outgoing[0]? = some p)
    | none => false
  | _ => false

/-- `ggml_opencog_rule_modus_ponens_conclusion`: re-checks the precondition,
derives a truth value from `P` and the implication, OR-merges it into `Q`'s
truth value in place, and returns `Q`. -/
def ggml_opencog_rule_modus_ponens_conclusion (as : AtomSpace)
    (premises : List Nat) : Option Nat × AtomSpace :=
  if ggml_opencog_rule_modus_ponens_precondition as premises then
    match premises with
    | [p, implication] =>
      match as.atoms[p]?, as.atoms[implication]? with
      | some pAtom, some impAtom =>
        match impAtom.outgoing[1]? with
        | some q =>
          match as.atoms[q]? with
          | some qAtom =>
            let new_tv := ggml_opencog_tv_create
              (pAtom.tv.strength * impAtom.tv.strength)
              (pAtom.tv.confidence * impAtom.tv.confidence)
              (min pAtom.tv.count impAtom.tv.count)
            (some q, setAtomTV as q (ggml_opencog_tv_or qAtom.tv new_tv))
          | none => (none, as)
        | none => (none, as)
      | _, _ => (none, as)
    | _ => (none, as)
  else (none, as)

/-- `ggml_opencog_rule_inheritance_precondition`: premises `[A→B, B→C]`,
both inheritance links, middle term matching by identity. -/
def ggml_opencog_rule_inheritance_precondition (as : AtomSpace)
    (premises : List Nat) : Bool :=
  match premises with
  | [i1, i2] =>
    match as.atoms[i1]?, as.atoms[i2]? with
    | some inh1, some inh2 =>
      decide (inh1.type = AtomType.inheritance_link) &&
      decide (inh2.type = AtomType.inheritance_link) &&
      decide (inh1.outgoing.length = 2) &&
      decide (inh2.outgoing.length = 2) &&
      decide (inh1.outgoing[1]? = inh2.outgoing[0]?)
    | _, _ => false
  | _ => false

/-- `ggml_opencog_rule_inheritance_conclusion`: re-checks the precondition
and creates a new `A→C` inheritance link with the decayed transitive truth
value. -/
def ggml_opencog_rule_inheritance_conclusion (as : AtomSpace)
    (premises : List Nat) : Option Nat × AtomSpace :=
  if ggml_opencog_rule_inheritance_precondition as premises then
    match premises with
    | [i1, i2] =>
      match as.atoms[i1]?, as.atoms[i2]? with
      | some inh1, some inh2 =>
        match inh1.outgoing[0]?, inh2.outgoing[1]? with
        | some a, some c =>
          let new_tv := ggml_opencog_tv_create
            (inh1.tv.strength * inh2.tv.strength)
            (inh1.tv.confidence * inh2.tv.confidence * (9 / 10))
            (min inh1.tv.count inh2.tv.count)
          ggml_opencog_link_create as AtomType.inheritance_link [a, c] new_tv
        | _, _ => (none, as)
      | _, _ => (none, as)
    | _ => (none, as)
  else (none, as)

/-- The two rules the repository registers with the URE (the rule set is
closed: these are the only precondition/conclusion pairs in the code). -/
inductive RuleKind
  | modus_ponens
  | inheritance
deriving Repr, DecidableEq

def RuleKind.precondition : RuleKind → AtomSpace → List Nat → Bool
  | .modus_ponens => ggml_opencog_rule_modus_ponens_precondition
  | .inheritance => ggml_opencog_rule_inheritance_precondition

def RuleKind.conclusion : RuleKind → AtomSpace → List Nat → Option Nat × AtomSpace
  | .modus_ponens => ggml_opencog_rule_modus_ponens_conclusion
  | .inheritance => ggml_opencog_rule_inheritance_conclusion

/-- `struct ggml_opencog_ure` without the atomspace pointer (the space is
threaded explicitly through the chaining loop). -/
structure URE where
  rules : List RuleKind
  max_iterations : Nat
  min_confidence : ℚ
deriving Repr, DecidableEq

/-- The mutable state of `ggml_opencog_ure_forward_chain`: the atomspace,
`inferences_made`, the per-iteration `made_inference` flag, and `done`
(the early `return` on reaching the target). -/
structure ChainSt where
  as : AtomSpace
  inferences_made : Nat
  made_inference : Bool
  done : Bool
deriving Repr, DecidableEq

/-- Body of the innermost loop of `ggml_opencog_ure_forward_chain`: test the
precondition on `[atoms[i], atoms[j]]`, on success run the conclusion, and
accept the inference when the conclusion exists and its (post-mutation)
confidence reaches `min_confidence`; reaching the target sets `done`. -/
def chainPairStep (ure : URE) (target : Option Nat) (rule : RuleKind)
    (i j : Nat) (st : ChainSt) : ChainSt :=
  if rule.precondition st.as [i, j] then
    let res := rule.conclusion st.as [i, j]
    match res.1 with
    | some c =>
      match res.2.atoms[c]? with
      | some cAtom =>
        if ure.min_confidence ≤ cAtom.tv.confidence then
          { as := res.2
            inferences_made := st.inferences_made + 1
            made_inference := true
            done := st.done || decide (target = some c) }
        else { st with as := res.2 }
      | none => { st with as := res.2 }
    | none => { st with as := res.2 }
  else st

/-- The `j` loop: `for (j = i+1; j < n_atoms; j++)`, `n_atoms` re-read each
test; `none` marks fuel exhaustion. -/
def chainLoopJ (ure : URE) (target : Option Nat) (rule : RuleKind) (i : Nat) :
    Nat → Nat → ChainSt → Option ChainSt
  | 0, j, st =>
      if st.done then some st
      else if j < st.as.atoms.length then none
      else some st
  | fuel + 1, j, st =>
      if st.done then some st
      else if j < st.as.atoms.length then
        chainLoopJ ure target rule i fuel (j + 1) (chainPairStep ure target rule i j st)
      else some st

/-- The `i` loop: `for (i = 0; i < n_atoms; i++)`. -/
def chainLoopI (ure : URE) (target : Option Nat) (rule : RuleKind) :
    Nat → Nat → ChainSt → Option ChainSt
  | 0, i, st =>
      if st.done then some st
      else if i < st.as.atoms.length then none
      else some st
  | fuel + 1, i, st =>
      if st.done then some st
      else if i < st.as.atoms.length then
        match chainLoopJ ure target rule i (st.as.capacity + 1) (i + 1) st with
        | none => none
        | some st2 => chainLoopI ure target rule fuel (i + 1) st2
      else some st

/-- The rule loop, in registration order. -/
def chainLoopRules (ure : URE) (target : Option Nat) :
    List RuleKind → ChainSt → Option ChainSt
  | [], st => some st
  | rule :: rest, st =>
      if st.done then some st
      else
        match chainLoopI ure target rule (st.as.capacity + 1) 0 st with
        | none => none
        | some st2 => chainLoopRules ure target rest st2

/-- The outer iteration loop with the fixpoint break
(`if (!made_inference) break`). -/
def chainLoopIter (ure : URE) (target : Option Nat) : Nat → ChainSt → Option ChainSt
  | 0, st => some st
  | iters + 1, st =>
      if st.done then some st
      else
        match chainLoopRules ure target ure.rules { st with made_inference := false } with
        | none => none
        | some st2 =>
          if st2.done then some st2
          else if st2.made_inference then chainLoopIter ure target iters st2
          else some st2

/-- `ggml_opencog_ure_forward_chain`: returns the inference count and the
final atomspace (`none` only on fuel exhaustion, excluded by the
termination theorem). -/
def ggml_opencog_ure_forward_chain (ure : URE) (as : AtomSpace)
    (target : Option Nat) : Option (Nat × AtomSpace) :=
  (chainLoopIter ure target ure.max_iterations
      { as := as, inferences_made := 0, made_inference := false, done := false }).map
    (fun st => (st.inferences_made, st.as))

/-! ## Example spaces used by witnesses and counterexamples -/


/-- A full space: two concept nodes, capacity 2. -/
def exFull : AtomSpace :=
  { atoms :=
      [ { type := .concept_node, name := some "X", tv := ⟨1, 1, 1⟩, outgoing := [] },
        { type := .concept_node, name := some "Y", tv := ⟨1, 1, 1⟩, outgoing := [] } ],
    capacity := 2 }

/-- A space with room: one concept node, capacity 2. -/
def exRoom : AtomSpace :=
  { atoms :=
      [ { type := .concept_node, name := some "X", tv := ⟨1, 1, 1⟩, outgoing := [] } ],
    capacity := 2 }

/-- The modus-ponens example space: `P`, `P→Q` (low-confidence implication),
`Q`, and a second high-confidence chain `P2`, `P2→Q2`, `Q2`. -/
def c2as : AtomSpace :=
  { atoms :=
      [ { type := .concept_node, name := some "P", tv := ⟨1, 1, 1⟩, outgoing := [] },
        { type := .implication_link, name := none, tv := ⟨1, 1/2, 1⟩, outgoing := [0, 2] },
        { type := .concept_node, name := some "Q", tv := ⟨1/2, 1/2, 1⟩, outgoing := [] },
        { type := .concept_node, name := some "P2", tv := ⟨1, 1, 1⟩, outgoing := [] },
        { type := .implication_link, name := none, tv := ⟨1, 1, 1⟩, outgoing := [3, 5] },
        { type := .concept_node, name := some "Q2", tv := ⟨1, 1, 1⟩, outgoing := [] } ],
    capacity := 6 }

/-- The URE configuration the modus-ponens examples run under. -/
def c2ure : URE :=
  { rules := [.modus_ponens], max_iterations := 1, min_confidence := 9/10 }

/-- A full space whose last two atoms form a valid inheritance premise pair:
the conclusion cannot create the `A→C` link. -/
def c5full : AtomSpace :=
  { atoms :=
      [ { type := .concept_node, name := some "A", tv := ⟨1, 1, 1⟩, outgoing := [] },
        { type := .concept_node, name := some "B", tv := ⟨1, 1, 1⟩, outgoing := [] },
        { type := .inheritance_link, name := none, tv := ⟨9/10, 4/5, 1⟩, outgoing := [0, 1] },
        { type := .inheritance_link, name := none, tv := ⟨9/10, 4/5, 1⟩, outgoing := [1, 0] } ],
    capacity := 4 }


/-- The inheritance example space: `A`, `B`, `C`, `A→B=(0.9,0.8,1)`,
`B→C=(0.9,0.8,1)`, with room for the derived link. -/
def c5as : AtomSpace :=
  { atoms :=
      [ { type := .concept_node, name := some "A", tv := ⟨1, 1, 1⟩, outgoing := [] },
        { type := .concept_node, name := some "B", tv := ⟨1, 1, 1⟩, outgoing := [] },
        { type := .concept_node, name := some "C", tv := ⟨1, 1, 1⟩, outgoing := [] },
        { type := .inheritance_link, name := none, tv := ⟨9/10, 4/5, 1⟩, outgoing := [0, 1] },
        { type := .inheritance_link, name := none, tv := ⟨9/10, 4/5, 1⟩, outgoing := [1, 2] } ],
    capacity := 6 }

/-- The example space after the low-confidence modus-ponens firing on
`[P, P→Q]`: Q's truth value has been OR-merged to `(1, 0.5, 1)`. -/
def c2asAfter : AtomSpace :=
  { atoms :=
      [ { type := .concept_node, name := some "P", tv := ⟨1, 1, 1⟩, outgoing := [] },
        { type := .implication_link, name := none, tv := ⟨1, 1/2, 1⟩, outgoing := [0, 2] },
        { type := .concept_node, name := some "Q", tv := ⟨1, 1/2, 1⟩, outgoing := [] },
        { type := .concept_node, name := some "P2", tv := ⟨1, 1, 1⟩, outgoing := [] },
        { type := .implication_link, name := none, tv := ⟨1, 1, 1⟩, outgoing := [3, 5] },
        { type := .concept_node, name := some "Q2", tv := ⟨1, 1, 1⟩, outgoing := [] } ],
    capacity := 6 }

/-- A degenerate space and engine for the C8 witness. -/
def c8as : AtomSpace := { atoms := [], capacity := 0 }

def c8ure : URE :=
  { rules := [.modus_ponens, .inheritance], max_iterations := 10,
    min_confidence := 1/2 }


/-! ## Helper lemmas -/

/-- Clamping is the identity on in-range inputs. -/
theorem tv_create_inRange_eq (s c n : ℚ) (hs0 : 0 ≤ s) (hs1 : s ≤ 1)
    (hc0 : 0 ≤ c) (hc1 : c ≤ 1) (hn : 0 ≤ n) :
    ggml_opencog_tv_create s c n = ⟨s, c, n⟩ := by
  unfold ggml_opencog_tv_create
  rw [min_eq_right hs1, max_eq_right hs0, min_eq_right hc1, max_eq_right hc0,
    max_eq_right hn]

/-! ## C6: concrete truth-value algebra instances -/

/-- C6: the truth-value algebra matches the spec's concrete instances:
`and((0.8,0.9,5),(0.6,0.7,3)) = (0.48,0.63,8)`, `or` of the same pair has
strength `0.92` and confidence `0.7`, and `not((0.8,0.9,x)) = (0.2,0.9,x)`
for every valid (nonnegative) count `x`. -/
theorem C6_tv_algebra_instances (x : ℚ) (hx : 0 ≤ x) :
    ggml_opencog_tv_and ⟨4/5, 9/10, 5⟩ ⟨3/5, 7/10, 3⟩ = ⟨12/25, 63/100, 8⟩ ∧
    (ggml_opencog_tv_or ⟨4/5, 9/10, 5⟩ ⟨3/5, 7/10, 3⟩).strength = 23/25 ∧
    (ggml_opencog_tv_or ⟨4/5, 9/10, 5⟩ ⟨3/5, 7/10, 3⟩).confidence = 7/10 ∧
    min (9/10 : ℚ) (7/10) = 7/10 ∧
    ggml_opencog_tv_not ⟨4/5, 9/10, x⟩ = ⟨1/5, 9/10, x⟩ := by
  refine ⟨?_, ?_, ?_, ?_, ?_⟩ <;>
    norm_num [ggml_opencog_tv_and, ggml_opencog_tv_or, ggml_opencog_tv_not,
      ggml_opencog_tv_create, min_def, max_def, hx]

/-- C6 witness: the universally quantified `not` clause at count `x = 5`. -/
theorem C6_tv_algebra_instances_witness :
    (0 : ℚ) ≤ 5 ∧ ggml_opencog_tv_not ⟨4/5, 9/10, 5⟩ = ⟨1/5, 9/10, 5⟩ :=
  ⟨by norm_num, (C6_tv_algebra_instances 5 (by norm_num)).2.2.2.2⟩

/-! ## C7: clamping and range preservation -/

/-- C7: `create(1.5,−0.5,−1) = (1,0,0)`, and every output of `create`,
`and`, `or`, `not` has strength and confidence in `[0,1]` and count `≥ 0`,
for arbitrary (even out-of-range) inputs. -/
theorem C7_tv_clamping_and_ranges :
    ggml_opencog_tv_create (3/2) (-1/2) (-1) = ⟨1, 0, 0⟩ ∧
    (∀ s c n, TVInRange (ggml_opencog_tv_create s c n)) ∧
    (∀ tv1 tv2, TVInRange (ggml_opencog_tv_and tv1 tv2)) ∧
    (∀ tv1 tv2, TVInRange (ggml_opencog_tv_or tv1 tv2)) ∧
    (∀ tv, TVInRange (ggml_opencog_tv_not tv)) := by
  have hrange : ∀ s c n, TVInRange (ggml_opencog_tv_create s c n) := by
    intro s c n
    refine ⟨le_max_left _ _, ?_, le_max_left _ _, ?_, le_max_left _ _⟩ <;>
      exact max_le (by norm_num) (min_le_left _ _)
  refine ⟨?_, hrange, fun tv1 tv2 => hrange _ _ _, fun tv1 tv2 => hrange _ _ _,
    fun tv => hrange _ _ _⟩
  norm_num [ggml_opencog_tv_create, min_def, max_def]

/-! ## C1: OR-combination of a truth value with itself -/

/-- C1 counterexample: `or(tv, tv) ≠ tv` at `tv = (0.5, 0.5, 1)` — the
strength becomes `0.5 + 0.5 − 0.25 = 0.75`. -/
theorem C1_or_self_counterexample :
    ggml_opencog_tv_or ⟨1/2, 1/2, 1⟩ ⟨1/2, 1/2, 1⟩ ≠ ⟨1/2, 1/2, 1⟩ := by
  norm_num [ggml_opencog_tv_or, ggml_opencog_tv_create, min_def, max_def]

/-- C1 (amended): OR-combining an in-range truth value with itself leaves
confidence and count unchanged but maps strength to `2s − s²`; the result
equals the original exactly when the strength is `0` or `1`. -/
theorem C1_or_self_characterization (tv : TruthValue) (h : TVInRange tv) :
    ggml_opencog_tv_or tv tv =
      ⟨2 * tv.strength - tv.strength * tv.strength, tv.confidence, tv.count⟩ ∧
    (ggml_opencog_tv_or tv tv = tv ↔ tv.strength = 0 ∨ tv.strength = 1) := by
  obtain ⟨s, c, n⟩ := tv
  obtain ⟨hs0, hs1, hc0, hc1, hn0⟩ := h
  simp only at hs0 hs1 hc0 hc1 hn0
  have hmain : ggml_opencog_tv_or ⟨s, c, n⟩ ⟨s, c, n⟩ = ⟨2 * s - s * s, c, n⟩ := by
    unfold ggml_opencog_tv_or
    rw [min_self, max_self]
    have h2 : ggml_opencog_tv_create (s + s - s * s) c n = ⟨s + s - s * s, c, n⟩ :=
      tv_create_inRange_eq _ _ _ (by nlinarith) (by nlinarith) hc0 hc1 hn0
    rw [h2]
    congr 1
    ring
  refine ⟨hmain, ?_⟩
  rw [hmain]
  simp only [TruthValue.mk.injEq, and_true]
  constructor
  · intro heq
    have h2 : s * (1 - s) = 0 := by linear_combination heq
    rcases mul_eq_zero.mp h2 with h3 | h3
    · exact Or.inl h3
    · exact Or.inr (by linarith)
  · rintro (h3 | h3) <;> rw [h3] <;> ring

/-- C1 witness: the characterization applied at `tv = (0.5, 0.5, 1)`. -/
theorem C1_or_self_witness :
    TVInRange ⟨1/2, 1/2, 1⟩ ∧
    ggml_opencog_tv_or ⟨1/2, 1/2, 1⟩ ⟨1/2, 1/2, 1⟩ =
      ⟨2 * (1/2) - (1/2) * (1/2), 1/2, 1⟩ :=
  ⟨by norm_num [TVInRange],
    (C1_or_self_characterization ⟨1/2, 1/2, 1⟩ (by norm_num [TVInRange])).1⟩

/-! ## C10: n_atoms never exceeds capacity -/

/-- C10: creation on a full space returns absent and leaves the space
unchanged; successful creation increments the atom count by exactly one. -/
theorem C10_capacity_never_exceeded (as : AtomSpace) (t : AtomType) (name : String)
    (outgoing : List Nat) (tv : TruthValue) :
    (as.capacity ≤ as.atoms.length →
      ggml_opencog_atom_create as t name tv = (none, as) ∧
      ggml_opencog_link_create as t outgoing tv = (none, as)) ∧
    (as.atoms.length < as.capacity →
      (ggml_opencog_atom_create as t name tv).1 = some as.atoms.length ∧
      (ggml_opencog_atom_create as t name tv).2.atoms.length = as.atoms.length + 1 ∧
      (ggml_opencog_link_create as t outgoing tv).1 = some as.atoms.length ∧
      (ggml_opencog_link_create as t outgoing tv).2.atoms.length = as.atoms.length + 1) := by
  refine ⟨fun h => ?_, fun h => ?_⟩
  · simp [ggml_opencog_atom_create, ggml_opencog_link_create, h]
  · simp [ggml_opencog_atom_create, ggml_opencog_link_create, Nat.not_le.mpr h]

/-- C10 witness: a full space of size 2 rejects one more creation with the
count left at 2; a space with room appends. -/
theorem C10_capacity_witness :
    exFull.capacity ≤ exFull.atoms.length ∧
    ggml_opencog_atom_create exFull .concept_node "Z" ⟨1, 1, 1⟩ = (none, exFull) ∧
    ggml_opencog_link_create exFull .inheritance_link [0, 1] ⟨1, 1, 1⟩ = (none, exFull) ∧
    exRoom.atoms.length < exRoom.capacity ∧
    (ggml_opencog_atom_create exRoom .concept_node "Z" ⟨1, 1, 1⟩).2.atoms.length =
      exRoom.atoms.length + 1 := by
  have h1 := C10_capacity_never_exceeded exFull .concept_node "Z" [0, 1] ⟨1, 1, 1⟩
  have h2 := C10_capacity_never_exceeded exRoom .concept_node "Z" [0, 1] ⟨1, 1, 1⟩
  have hf : exFull.capacity ≤ exFull.atoms.length := by norm_num [exFull]
  have hr : exRoom.atoms.length < exRoom.capacity := by norm_num [exRoom]
  exact ⟨hf, (h1.1 hf).1, (h1.1 hf).2, hr, (h2.2 hr).2.1⟩

/-! ## C9: failing precondition means no effect -/

/-- C9: a conclusion function invoked on premises failing its precondition
returns absent and leaves the AtomSpace (and hence every truth value)
unchanged, for both built-in rules and every premise list. -/
theorem C9_precondition_unmet_no_mutation (as : AtomSpace) (premises : List Nat) :
    (ggml_opencog_rule_modus_ponens_precondition as premises = false →
      ggml_opencog_rule_modus_ponens_conclusion as premises = (none, as)) ∧
    (ggml_opencog_rule_inheritance_precondition as premises = false →
      ggml_opencog_rule_inheritance_conclusion as premises = (none, as)) := by
  constructor <;> intro h <;>
    simp [ggml_opencog_rule_modus_ponens_conclusion,
      ggml_opencog_rule_inheritance_conclusion, h]

/-- C9 witness: two concept nodes satisfy neither precondition; both
conclusions return absent with the space unchanged. -/
theorem C9_precondition_unmet_witness :
    ggml_opencog_rule_modus_ponens_precondition exFull [0, 1] = false ∧
    ggml_opencog_rule_modus_ponens_conclusion exFull [0, 1] = (none, exFull) ∧
    ggml_opencog_rule_inheritance_precondition exFull [0, 1] = false ∧
    ggml_opencog_rule_inheritance_conclusion exFull [0, 1] = (none, exFull) := by
  have hmp : ggml_opencog_rule_modus_ponens_precondition exFull [0, 1] = false := by
    norm_num [exFull, ggml_opencog_rule_modus_ponens_precondition]
  have hinh : ggml_opencog_rule_inheritance_precondition exFull [0, 1] = false := by
    norm_num [exFull, ggml_opencog_rule_inheritance_precondition]
  exact ⟨hmp, (C9_precondition_unmet_no_mutation exFull [0, 1]).1 hmp,
    hinh, (C9_precondition_unmet_no_mutation exFull [0, 1]).2 hinh⟩

/-! ## C4: the modus-ponens conclusion -/

/-- C4: on a premise pair `[P, P→Q]` satisfying the precondition (with valid
atoms carrying in-range truth values), the conclusion derives exactly
`(s_P·s_imp, c_P·c_imp, min(n_P,n_imp))`, OR-merges it into Q's truth value
in place, and returns Q. -/
theorem C4_modus_ponens_conclusion_spec (as : AtomSpace) (p implication q : Nat)
    (pAtom impAtom qAtom : Atom)
    (hp : as.atoms[p]? = some pAtom)
    (himp : as.atoms[implication]? = some impAtom)
    (hpre : ggml_opencog_rule_modus_ponens_precondition as [p, implication] = true)
    (hq : impAtom.outgoing[1]? = some q)
    (hqA : as.atoms[q]? = some qAtom)
    (hpR : TVInRange pAtom.tv) (hiR : TVInRange impAtom.tv) :
    ggml_opencog_rule_modus_ponens_conclusion as [p, implication] =
      (some q,
        setAtomTV as q (ggml_opencog_tv_or qAtom.tv
          ⟨pAtom.tv.strength * impAtom.tv.strength,
           pAtom.tv.confidence * impAtom.tv.confidence,
           min pAtom.tv.count impAtom.tv.count⟩)) := by
  obtain ⟨hp0, hp1, hpc0, hpc1, hpn⟩ := hpR
  obtain ⟨hi0, hi1, hic0, hic1, hin⟩ := hiR
  have hcr := tv_create_inRange_eq (pAtom.tv.strength * impAtom.tv.strength)
    (pAtom.tv.confidence * impAtom.tv.confidence)
    (min pAtom.tv.count impAtom.tv.count)
    (mul_nonneg hp0 hi0) (by nlinarith) (mul_nonneg hpc0 hic0) (by nlinarith)
    (le_min hpn hin)
  simp [ggml_opencog_rule_modus_ponens_conclusion, hpre, hp, himp, hq, hqA, hcr]

/-- C4 witness: the conclusion on `[P, P→Q]` in the example space derives
`(1·1, 1·0.5, min(1,1))` and OR-merges it into Q. -/
theorem C4_modus_ponens_conclusion_witness :
    ggml_opencog_rule_modus_ponens_precondition c2as [0, 1] = true ∧
    TVInRange (⟨1, 1, 1⟩ : TruthValue) ∧ TVInRange (⟨1, 1/2, 1⟩ : TruthValue) ∧
    ggml_opencog_rule_modus_ponens_conclusion c2as [0, 1] =
      (some 2, setAtomTV c2as 2 (ggml_opencog_tv_or ⟨1/2, 1/2, 1⟩
        ⟨(1 : ℚ) * 1, (1 : ℚ) * (1/2), min (1 : ℚ) 1⟩)) := by
  refine ⟨?_, by norm_num [TVInRange], by norm_num [TVInRange], ?_⟩
  · norm_num [c2as, ggml_opencog_rule_modus_ponens_precondition]
  · exact C4_modus_ponens_conclusion_spec c2as 0 1 2
      ⟨.concept_node, some "P", ⟨1, 1, 1⟩, []⟩
      ⟨.implication_link, none, ⟨1, 1/2, 1⟩, [0, 2]⟩
      ⟨.concept_node, some "Q", ⟨1/2, 1/2, 1⟩, []⟩
      (by norm_num [c2as]) (by norm_num [c2as])
      (by norm_num [c2as, ggml_opencog_rule_modus_ponens_precondition])
      (by norm_num) (by norm_num [c2as])
      (by norm_num [TVInRange]) (by norm_num [TVInRange])

/-! ## C5: the inheritance-transitivity conclusion -/

/-- C5 counterexample: a premise pair satisfying the inheritance
precondition on a space at capacity — the conclusion returns absent instead
of creating and returning a new `A→C` link. -/
theorem C5_inheritance_conclusion_counterexample :
    ggml_opencog_rule_inheritance_precondition c5full [2, 3] = true ∧
    ggml_opencog_rule_inheritance_conclusion c5full [2, 3] = (none, c5full) := by
  constructor <;>
    norm_num [c5full, ggml_opencog_rule_inheritance_precondition,
      ggml_opencog_rule_inheritance_conclusion, ggml_opencog_link_create,
      ggml_opencog_tv_create, min_def, max_def]

/-- C5 (amended): on a premise pair `[A→B, B→C]` satisfying the
precondition, with in-range truth values and the space below capacity, the
conclusion appends and returns a new `A→C` InheritanceLink with strength
`s1·s2`, confidence `c1·c2·0.9`, count `min(n1,n2)`. -/
theorem C5_inheritance_conclusion_spec (as : AtomSpace) (i1 i2 a c : Nat)
    (inh1 inh2 : Atom)
    (h1 : as.atoms[i1]? = some inh1) (h2 : as.atoms[i2]? = some inh2)
    (hpre : ggml_opencog_rule_inheritance_precondition as [i1, i2] = true)
    (ha : inh1.outgoing[0]? = some a) (hc : inh2.outgoing[1]? = some c)
    (h1R : TVInRange inh1.tv) (h2R : TVInRange inh2.tv)
    (hroom : as.atoms.length < as.capacity) :
    ggml_opencog_rule_inheritance_conclusion as [i1, i2] =
      (some as.atoms.length,
        { as with atoms := as.atoms ++
            [{ type := AtomType.inheritance_link, name := none,
               tv := ⟨inh1.tv.strength * inh2.tv.strength,
                      inh1.tv.confidence * inh2.tv.confidence * (9/10),
                      min inh1.tv.count inh2.tv.count⟩,
               outgoing := [a, c] }] }) := by
  obtain ⟨h10, h11, h1c0, h1c1, h1n⟩ := h1R
  obtain ⟨h20, h21, h2c0, h2c1, h2n⟩ := h2R
  have hcc : inh1.tv.confidence * inh2.tv.confidence ≤ 1 := by nlinarith
  have hcr := tv_create_inRange_eq (inh1.tv.strength * inh2.tv.strength)
    (inh1.tv.confidence * inh2.tv.confidence * (9/10))
    (min inh1.tv.count inh2.tv.count)
    (mul_nonneg h10 h20) (by nlinarith)
    (mul_nonneg (mul_nonneg h1c0 h2c0) (by norm_num)) (by nlinarith)
    (le_min h1n h2n)
  simp [ggml_opencog_rule_inheritance_conclusion, hpre, h1, h2, ha, hc, hcr,
    ggml_opencog_link_create, Nat.not_le.mpr hroom]

/-- C5 witness: from `A→B=(0.9,0.8,1)` and `B→C=(0.9,0.8,1)` the derived
`A→C` has strength `0.81 = 81/100` and confidence `0.576 = 72/125`. -/
theorem C5_inheritance_conclusion_witness :
    ggml_opencog_rule_inheritance_precondition c5as [3, 4] = true ∧
    c5as.atoms.length < c5as.capacity ∧
    ggml_opencog_rule_inheritance_conclusion c5as [3, 4] =
      (some 5,
        { c5as with atoms := c5as.atoms ++
            [{ type := AtomType.inheritance_link, name := none,
               tv := ⟨81/100, 72/125, 1⟩, outgoing := [0, 2] }] }) := by
  refine ⟨?_, by norm_num [c5as], ?_⟩
  · norm_num [c5as, ggml_opencog_rule_inheritance_precondition]
  · have h := C5_inheritance_conclusion_spec c5as 3 4 0 2
      ⟨.inheritance_link, none, ⟨9/10, 4/5, 1⟩, [0, 1]⟩
      ⟨.inheritance_link, none, ⟨9/10, 4/5, 1⟩, [1, 2]⟩
      (by norm_num [c5as]) (by norm_num [c5as])
      (by norm_num [c5as, ggml_opencog_rule_inheritance_precondition])
      (by norm_num) (by norm_num)
      (by norm_num [TVInRange]) (by norm_num [TVInRange])
      (by norm_num [c5as])
    rw [h]
    norm_num [c5as, min_def]

/-! ## C3: a below-threshold conclusion is rejected but has already mutated -/

/-- C3: when the precondition holds but the conclusion's (post-mutation)
confidence is below `min_confidence`, the loop body counts nothing and does
not mark the iteration productive — yet the state keeps the mutated
AtomSpace produced by the conclusion call. -/
theorem C3_below_threshold_still_mutates (ure : URE) (target : Option Nat)
    (rule : RuleKind) (i j : Nat) (st : ChainSt) (c : Nat) (as2 : AtomSpace)
    (cAtom : Atom)
    (hpre : rule.precondition st.as [i, j] = true)
    (hconc : rule.conclusion st.as [i, j] = (some c, as2))
    (hcA : as2.atoms[c]? = some cAtom)
    (hconf : cAtom.tv.confidence < ure.min_confidence) :
    chainPairStep ure target rule i j st = { st with as := as2 } := by
  simp [chainPairStep, hpre, hconc, hcA, not_le.mpr hconf]

/-- C3 witness: the low-confidence modus-ponens firing is not counted, but Q's
truth value has changed in the resulting state. -/
theorem C3_below_threshold_witness :
    RuleKind.modus_ponens.precondition c2as [0, 1] = true ∧
    RuleKind.modus_ponens.conclusion c2as [0, 1] = (some 2, c2asAfter) ∧
    c2asAfter.atoms[2]? = some ⟨.concept_node, some "Q", ⟨1, 1/2, 1⟩, []⟩ ∧
    ((1 : ℚ)/2) < c2ure.min_confidence ∧
    chainPairStep c2ure none .modus_ponens 0 1 ⟨c2as, 0, false, false⟩ =
      ⟨c2asAfter, 0, false, false⟩ ∧
    c2asAfter ≠ c2as := by
  have hpre : RuleKind.modus_ponens.precondition c2as [0, 1] = true := by
    norm_num [RuleKind.precondition, c2as, ggml_opencog_rule_modus_ponens_precondition]
  have hconc : RuleKind.modus_ponens.conclusion c2as [0, 1] = (some 2, c2asAfter) := by
    norm_num [RuleKind.conclusion, c2as, c2asAfter,
      ggml_opencog_rule_modus_ponens_conclusion,
      ggml_opencog_rule_modus_ponens_precondition, setAtomTV,
      ggml_opencog_tv_or, ggml_opencog_tv_create, min_def, max_def]
  have hcA : c2asAfter.atoms[2]? = some ⟨.concept_node, some "Q", ⟨1, 1/2, 1⟩, []⟩ := by
    norm_num [c2asAfter]
  have hconf : ((1 : ℚ)/2) < c2ure.min_confidence := by norm_num [c2ure]
  refine ⟨hpre, hconc, hcA, hconf, ?_, ?_⟩
  · exact C3_below_threshold_still_mutates c2ure none .modus_ponens 0 1
      ⟨c2as, 0, false, false⟩ 2 c2asAfter ⟨.concept_node, some "Q", ⟨1, 1/2, 1⟩, []⟩
      hpre hconc hcA hconf
  · norm_num [c2as, c2asAfter]

/-! ## C2: reaching the target -/

/-- C2 counterexample: with target Q, the very first enumerated pair
`[P, P→Q]` satisfies the precondition and its conclusion IS the target —
but its merged confidence is below `min_confidence`, so the chain does not
stop there (and has made 0 accepted inferences at that point): it goes on
and returns 1 from a later accepted inference. -/
theorem C2_target_stop_counterexample :
    ggml_opencog_rule_modus_ponens_precondition c2as [0, 1] = true ∧
    (ggml_opencog_rule_modus_ponens_conclusion c2as [0, 1]).1 = some 2 ∧
    (ggml_opencog_ure_forward_chain c2ure c2as (some 2)).map Prod.fst = some 1 := by
  refine ⟨?_, ?_, ?_⟩
  · norm_num [c2as, ggml_opencog_rule_modus_ponens_precondition]
  · norm_num [c2as, ggml_opencog_rule_modus_ponens_conclusion,
      ggml_opencog_rule_modus_ponens_precondition, setAtomTV,
      ggml_opencog_tv_or, ggml_opencog_tv_create, min_def, max_def]
  · norm_num [c2ure, c2as, ggml_opencog_ure_forward_chain, chainLoopIter,
      chainLoopRules, chainLoopI, chainLoopJ, chainPairStep,
      RuleKind.precondition, RuleKind.conclusion,
      ggml_opencog_rule_modus_ponens_precondition,
      ggml_opencog_rule_modus_ponens_conclusion,
      setAtomTV, ggml_opencog_tv_or, ggml_opencog_tv_create, min_def, max_def]

/-- C2 (amended): producing the target stops the chain immediately — with
the produced inference included in the returned count — exactly when the
conclusion also passes the confidence threshold: the loop body then sets
`done` and increments the count, and every enclosing loop returns a `done`
state unchanged. -/
theorem C2_amended_target_requires_acceptance (ure : URE) (target : Option Nat)
    (rule : RuleKind) (i j : Nat) (st : ChainSt) (c : Nat) (as2 : AtomSpace)
    (cAtom : Atom)
    (hpre : rule.precondition st.as [i, j] = true)
    (hconc : rule.conclusion st.as [i, j] = (some c, as2))
    (hcA : as2.atoms[c]? = some cAtom)
    (hconf : ure.min_confidence ≤ cAtom.tv.confidence)
    (htgt : target = some c) :
    chainPairStep ure target rule i j st =
      { as := as2, inferences_made := st.inferences_made + 1,
        made_inference := true, done := true } ∧
    (∀ fuel j2 st2, st2.done = true →
      chainLoopJ ure target rule i fuel j2 st2 = some st2) ∧
    (∀ fuel i2 st2, st2.done = true →
      chainLoopI ure target rule fuel i2 st2 = some st2) ∧
    (∀ rules st2, st2.done = true →
      chainLoopRules ure target rules st2 = some st2) ∧
    (∀ iters st2, st2.done = true →
      chainLoopIter ure target iters st2 = some st2) := by
  refine ⟨?_, ?_, ?_, ?_, ?_⟩
  · simp [chainPairStep, hpre, hconc, hcA, hconf, htgt]
  · intro fuel j2 st2 h; cases fuel <;> simp [chainLoopJ, h]
  · intro fuel i2 st2 h; cases fuel <;> simp [chainLoopI, h]
  · intro rules st2 h; cases rules <;> simp [chainLoopRules, h]
  · intro iters st2 h; cases iters <;> simp [chainLoopIter, h]

/-- C2 witness: the high-confidence pair `[P2, P2→Q2]` with target Q2 stops
the loop at once with the count incremented. -/
theorem C2_amended_witness :
    RuleKind.modus_ponens.precondition c2as [3, 4] = true ∧
    RuleKind.modus_ponens.conclusion c2as [3, 4] = (some 5, c2as) ∧
    c2as.atoms[5]? = some ⟨.concept_node, some "Q2", ⟨1, 1, 1⟩, []⟩ ∧
    c2ure.min_confidence ≤ (1 : ℚ) ∧
    chainPairStep c2ure (some 5) .modus_ponens 3 4 ⟨c2as, 0, false, false⟩ =
      ⟨c2as, 1, true, true⟩ ∧
    chainLoopIter c2ure (some 5) 5 ⟨c2as, 1, true, true⟩ =
      some ⟨c2as, 1, true, true⟩ := by
  have hpre : RuleKind.modus_ponens.precondition c2as [3, 4] = true := by
    norm_num [RuleKind.precondition, c2as, ggml_opencog_rule_modus_ponens_precondition]
  have hconc : RuleKind.modus_ponens.conclusion c2as [3, 4] = (some 5, c2as) := by
    norm_num [RuleKind.conclusion, c2as,
      ggml_opencog_rule_modus_ponens_conclusion,
      ggml_opencog_rule_modus_ponens_precondition, setAtomTV,
      ggml_opencog_tv_or, ggml_opencog_tv_create, min_def, max_def]
  have hcA : c2as.atoms[5]? = some ⟨.concept_node, some "Q2", ⟨1, 1, 1⟩, []⟩ := by
    norm_num [c2as]
  have hconf : c2ure.min_confidence ≤ (1 : ℚ) := by norm_num [c2ure]
  have h := C2_amended_target_requires_acceptance c2ure (some 5) .modus_ponens 3 4
    ⟨c2as, 0, false, false⟩ 5 c2as ⟨.concept_node, some "Q2", ⟨1, 1, 1⟩, []⟩
    hpre hconc hcA hconf rfl
  exact ⟨hpre, hconc, hcA, hconf, h.1, h.2.2.2.2 5 ⟨c2as, 1, true, true⟩ rfl⟩

/-! ## C8: termination and degenerate cases of forward chaining -/

theorem setAtomTV_capacity (as : AtomSpace) (i : Nat) (tv : TruthValue) :
    (setAtomTV as i tv).capacity = as.capacity := by
  unfold setAtomTV; split <;> rfl

theorem setAtomTV_length (as : AtomSpace) (i : Nat) (tv : TruthValue) :
    (setAtomTV as i tv).atoms.length = as.atoms.length := by
  unfold setAtomTV; split <;> simp

/-- Both rule conclusions preserve the capacity and the capacity bound on the
atom count. -/
theorem conclusion_capacity_length (rule : RuleKind) (as : AtomSpace)
    (premises : List Nat) (h : as.atoms.length ≤ as.capacity) :
    (rule.conclusion as premises).2.capacity = as.capacity ∧
    (rule.conclusion as premises).2.atoms.length ≤ as.capacity := by
  cases rule
  case modus_ponens =>
    simp only [RuleKind.conclusion]
    unfold ggml_opencog_rule_modus_ponens_conclusion
    repeat' split
    all_goals simp [setAtomTV_capacity, setAtomTV_length, h]
  case inheritance =>
    simp only [RuleKind.conclusion]
    unfold ggml_opencog_rule_inheritance_conclusion ggml_opencog_link_create
    repeat' split
    all_goals simp_all
    all_goals omega

/-- The loop body preserves the capacity and the capacity bound. -/
theorem chainPairStep_capacity_length (ure : URE) (target : Option Nat)
    (rule : RuleKind) (i j : Nat) (st : ChainSt)
    (h : st.as.atoms.length ≤ st.as.capacity) :
    (chainPairStep ure target rule i j st).as.capacity = st.as.capacity ∧
    (chainPairStep ure target rule i j st).as.atoms.length ≤ st.as.capacity := by
  have hc := conclusion_capacity_length rule st.as [i, j] h
  unfold chainPairStep
  split
  · rcases h1 : (rule.conclusion st.as [i, j]).1 with _ | c
    · simp [h1, hc.1, hc.2]
    · rcases h2 : (rule.conclusion st.as [i, j]).2.atoms[c]? with _ | cAtom
      · simp [h1, h2, hc.1, hc.2]
      · by_cases h3 : ure.min_confidence ≤ cAtom.tv.confidence <;>
          simp [h1, h2, h3, hc.1, hc.2]
  · exact ⟨rfl, h⟩

theorem chainLoopJ_total (ure : URE) (target : Option Nat) (rule : RuleKind)
    (i : Nat) :
    ∀ fuel j st, st.as.atoms.length ≤ st.as.capacity →
      st.as.capacity < fuel + j →
      ∃ st2, chainLoopJ ure target rule i fuel j st = some st2 ∧
        st2.as.capacity = st.as.capacity ∧
        st2.as.atoms.length ≤ st2.as.capacity := by
  intro fuel
  induction fuel with
  | zero =>
    intro j st h hf
    unfold chainLoopJ
    split
    · exact ⟨st, rfl, rfl, h⟩
    · split
      · next hj => exact absurd hj (by omega)
      · exact ⟨st, rfl, rfl, h⟩
  | succ fuel ih =>
    intro j st h hf
    unfold chainLoopJ
    split
    · exact ⟨st, rfl, rfl, h⟩
    · split
      · have hps := chainPairStep_capacity_length ure target rule i j st h
        obtain ⟨st2, heq, hcap, hlen⟩ := ih (j + 1)
          (chainPairStep ure target rule i j st)
          (by rw [hps.1]; exact hps.2) (by rw [hps.1]; omega)
        exact ⟨st2, heq, by rw [hcap, hps.1], hlen⟩
      · exact ⟨st, rfl, rfl, h⟩

theorem chainLoopI_total (ure : URE) (target : Option Nat) (rule : RuleKind) :
    ∀ fuel i st, st.as.atoms.length ≤ st.as.capacity →
      st.as.capacity < fuel + i →
      ∃ st2, chainLoopI ure target rule fuel i st = some st2 ∧
        st2.as.capacity = st.as.capacity ∧
        st2.as.atoms.length ≤ st2.as.capacity := by
  intro fuel
  induction fuel with
  | zero =>
    intro i st h hf
    unfold chainLoopI
    split
    · exact ⟨st, rfl, rfl, h⟩
    · split
      · next hi => exact absurd hi (by omega)
      · exact ⟨st, rfl, rfl, h⟩
  | succ fuel ih =>
    intro i st h hf
    unfold chainLoopI
    split
    · exact ⟨st, rfl, rfl, h⟩
    · split
      · obtain ⟨stJ, heqJ, hcapJ, hlenJ⟩ := chainLoopJ_total ure target rule i
          (st.as.capacity + 1) (i + 1) st h (by omega)
        rw [heqJ]
        obtain ⟨st2, heq2, hcap2, hlen2⟩ := ih (i + 1) stJ hlenJ
          (by rw [hcapJ]; omega)
        exact ⟨st2, heq2, by rw [hcap2, hcapJ], hlen2⟩
      · exact ⟨st, rfl, rfl, h⟩

theorem chainLoopRules_total (ure : URE) (target : Option Nat) :
    ∀ rules st, st.as.atoms.length ≤ st.as.capacity →
      ∃ st2, chainLoopRules ure target rules st = some st2 ∧
        st2.as.capacity = st.as.capacity ∧
        st2.as.atoms.length ≤ st2.as.capacity := by
  intro rules
  induction rules with
  | nil => intro st h; exact ⟨st, rfl, rfl, h⟩
  | cons rule rest ih =>
    intro st h
    unfold chainLoopRules
    split
    · exact ⟨st, rfl, rfl, h⟩
    · obtain ⟨stI, heqI, hcapI, hlenI⟩ := chainLoopI_total ure target rule
        (st.as.capacity + 1) 0 st h (by omega)
      rw [heqI]
      obtain ⟨st2, heq2, hcap2, hlen2⟩ := ih stI hlenI
      exact ⟨st2, heq2, by rw [hcap2, hcapI], hlen2⟩

theorem chainLoopIter_total (ure : URE) (target : Option Nat) :
    ∀ iters st, st.as.atoms.length ≤ st.as.capacity →
      ∃ st2, chainLoopIter ure target iters st = some st2 ∧
        st2.as.capacity = st.as.capacity ∧
        st2.as.atoms.length ≤ st2.as.capacity := by
  intro iters
  induction iters with
  | zero => intro st h; exact ⟨st, rfl, rfl, h⟩
  | succ iters ih =>
    intro st h
    unfold chainLoopIter
    split
    · exact ⟨st, rfl, rfl, h⟩
    · obtain ⟨stR, heqR, hcapR, hlenR⟩ := chainLoopRules_total ure target ure.rules
        { st with made_inference := false } h
      simp only [heqR]
      split
      · exact ⟨stR, rfl, hcapR, hlenR⟩
      · split
        · obtain ⟨st2, heq2, hcap2, hlen2⟩ := ih stR hlenR
          exact ⟨st2, heq2, by rw [hcap2, hcapR], hlen2⟩
        · exact ⟨stR, rfl, hcapR, hlenR⟩

/-- A failing precondition leaves the loop body a no-op. -/
theorem chainPairStep_no_pre (ure : URE) (target : Option Nat) (rule : RuleKind)
    (i j : Nat) (st : ChainSt)
    (h : rule.precondition st.as [i, j] = false) :
    chainPairStep ure target rule i j st = st := by
  simp [chainPairStep, h]

theorem chainLoopJ_id (ure : URE) (target : Option Nat) (rule : RuleKind)
    (i : Nat) :
    ∀ fuel j st, st.done = false →
      st.as.atoms.length ≤ st.as.capacity → st.as.capacity < fuel + j →
      (∀ j2, rule.precondition st.as [i, j2] = false) →
      chainLoopJ ure target rule i fuel j st = some st := by
  intro fuel
  induction fuel with
  | zero =>
    intro j st hd h hf hp
    have hj : ¬ j < st.as.atoms.length := by omega
    simp [chainLoopJ, hd, hj]
  | succ fuel ih =>
    intro j st hd h hf hp
    by_cases hj : j < st.as.atoms.length
    · have hps := chainPairStep_no_pre ure target rule i j st (hp j)
      simp only [chainLoopJ, hd, hj, if_true, Bool.false_eq_true, if_false, hps]
      exact ih (j + 1) st hd h (by omega) hp
    · simp [chainLoopJ, hd, hj]

theorem chainLoopI_id (ure : URE) (target : Option Nat) (rule : RuleKind) :
    ∀ fuel i st, st.done = false →
      st.as.atoms.length ≤ st.as.capacity → st.as.capacity < fuel + i →
      (∀ i2 j2, rule.precondition st.as [i2, j2] = false) →
      chainLoopI ure target rule fuel i st = some st := by
  intro fuel
  induction fuel with
  | zero =>
    intro i st hd h hf hp
    have hi : ¬ i < st.as.atoms.length := by omega
    simp [chainLoopI, hd, hi]
  | succ fuel ih =>
    intro i st hd h hf hp
    by_cases hi : i < st.as.atoms.length
    · have hj := chainLoopJ_id ure target rule i (st.as.capacity + 1) (i + 1) st
        hd h (by omega) (hp i)
      simp only [chainLoopI, hd, hi, if_true, Bool.false_eq_true, if_false, hj]
      exact ih (i + 1) st hd h (by omega) hp
    · simp [chainLoopI, hd, hi]

theorem chainLoopRules_id (ure : URE) (target : Option Nat) :
    ∀ rules st, st.done = false →
      st.as.atoms.length ≤ st.as.capacity →
      (∀ rule ∈ rules, ∀ i j, rule.precondition st.as [i, j] = false) →
      chainLoopRules ure target rules st = some st := by
  intro rules
  induction rules with
  | nil => intro st hd h hp; rfl
  | cons rule rest ih =>
    intro st hd h hp
    have hI := chainLoopI_id ure target rule (st.as.capacity + 1) 0 st hd h
      (by omega) (hp rule (List.mem_cons_self rule rest))
    simp only [chainLoopRules, hd, Bool.false_eq_true, if_false, hI]
    exact ih st hd h (fun r hr => hp r (List.mem_cons_of_mem rule hr))

/-- When no pair satisfies any registered precondition, the first pass is a
no-op and forward chaining returns 0 with the space unchanged. -/
theorem forward_chain_no_pre (ure : URE) (as : AtomSpace)
    (hcap : as.atoms.length ≤ as.capacity)
    (hp : ∀ rule ∈ ure.rules, ∀ i j, rule.precondition as [i, j] = false) :
    ggml_opencog_ure_forward_chain ure as none = some (0, as) := by
  unfold ggml_opencog_ure_forward_chain
  cases hmi : ure.max_iterations with
  | zero => simp [chainLoopIter]
  | succ iters =>
    have hrules := chainLoopRules_id ure none ure.rules
      ⟨as, 0, false, false⟩ rfl hcap hp
    simp [chainLoopIter, hrules]

/-- With an empty rule set every pass is a no-op. -/
theorem forward_chain_no_rules (ure : URE) (as : AtomSpace)
    (hr : ure.rules = []) :
    ggml_opencog_ure_forward_chain ure as none = some (0, as) := by
  unfold ggml_opencog_ure_forward_chain
  cases hmi : ure.max_iterations with
  | zero => simp [chainLoopIter]
  | succ iters => simp [chainLoopIter, hr, chainLoopRules]

/-- The inner loop never runs a body once `j` has reached the atom count. -/
theorem chainLoopJ_out (ure : URE) (target : Option Nat) (rule : RuleKind)
    (i fuel j : Nat) (st : ChainSt) (hd : st.done = false)
    (hj : st.as.atoms.length ≤ j) :
    chainLoopJ ure target rule i fuel j st = some st := by
  cases fuel <;> simp [chainLoopJ, hd, Nat.not_lt.mpr hj]

theorem chainLoopI_small (ure : URE) (target : Option Nat) (rule : RuleKind) :
    ∀ fuel i st, st.done = false →
      st.as.atoms.length < 2 → st.as.atoms.length ≤ st.as.capacity →
      st.as.capacity < fuel + i →
      chainLoopI ure target rule fuel i st = some st := by
  intro fuel
  induction fuel with
  | zero =>
    intro i st hd h2 hc hf
    have hi : ¬ i < st.as.atoms.length := by omega
    simp [chainLoopI, hd, hi]
  | succ fuel ih =>
    intro i st hd h2 hc hf
    by_cases hi : i < st.as.atoms.length
    · have hj := chainLoopJ_out ure target rule i (st.as.capacity + 1) (i + 1) st
        hd (by omega)
      simp only [chainLoopI, hd, hi, if_true, Bool.false_eq_true, if_false, hj]
      exact ih (i + 1) st hd h2 hc (by omega)
    · simp [chainLoopI, hd, hi]

theorem chainLoopRules_small (ure : URE) (target : Option Nat) :
    ∀ rules st, st.done = false → st.as.atoms.length < 2 →
      st.as.atoms.length ≤ st.as.capacity →
      chainLoopRules ure target rules st = some st := by
  intro rules
  induction rules with
  | nil => intro st hd h2 hc; rfl
  | cons rule rest ih =>
    intro st hd h2 hc
    have hI := chainLoopI_small ure target rule (st.as.capacity + 1) 0 st hd h2 hc
      (by omega)
    simp only [chainLoopRules, hd, Bool.false_eq_true, if_false, hI]
    exact ih st hd h2 hc

/-- With fewer than two atoms no pair is ever tested. -/
theorem forward_chain_small (ure : URE) (as : AtomSpace)
    (hcap : as.atoms.length ≤ as.capacity) (h2 : as.atoms.length < 2) :
    ggml_opencog_ure_forward_chain ure as none = some (0, as) := by
  unfold ggml_opencog_ure_forward_chain
  cases hmi : ure.max_iterations with
  | zero => simp [chainLoopIter]
  | succ iters =>
    have hrules := chainLoopRules_small ure none ure.rules
      ⟨as, 0, false, false⟩ rfl h2 hcap
    simp [chainLoopIter, hrules]

/-- C8: on any capacity-respecting AtomSpace and any finite rule set,
forward chaining with a null target terminates (never exhausts the iteration
and pair bounds) with a (non-negative) inference count; it returns 0 with
the space unchanged when no pair satisfies any registered precondition, when
no rules are registered, or when fewer than two atoms exist. -/
theorem C8_forward_chain_termination (ure : URE) (as : AtomSpace)
    (hcap : as.atoms.length ≤ as.capacity) :
    (∃ n as2, ggml_opencog_ure_forward_chain ure as none = some (n, as2)) ∧
    ((∀ rule ∈ ure.rules, ∀ i j, rule.precondition as [i, j] = false) →
      ggml_opencog_ure_forward_chain ure as none = some (0, as)) ∧
    (ure.rules = [] → ggml_opencog_ure_forward_chain ure as none = some (0, as)) ∧
    (as.atoms.length < 2 → ggml_opencog_ure_forward_chain ure as none = some (0, as)) := by
  refine ⟨?_, fun hp => forward_chain_no_pre ure as hcap hp,
    fun hr => forward_chain_no_rules ure as hr,
    fun h2 => forward_chain_small ure as hcap h2⟩
  obtain ⟨st2, heq, h1, h2⟩ := chainLoopIter_total ure none ure.max_iterations
    ⟨as, 0, false, false⟩ hcap
  exact ⟨st2.inferences_made, st2.as,
    by simp [ggml_opencog_ure_forward_chain, heq]⟩

/-- C8 witness: on the empty space both rules yield zero inferences and the
space is unchanged. -/
theorem C8_forward_chain_witness :
    c8as.atoms.length ≤ c8as.capacity ∧
    ggml_opencog_ure_forward_chain c8ure c8as none = some (0, c8as) := by
  have h := C8_forward_chain_termination c8ure c8as (by norm_num [c8as])
  exact ⟨by norm_num [c8as], h.2.2.2 (by norm_num [c8as])⟩
